import Mathlib

/-!
Verification development for the document-embedding and semantic-retrieval
engine of the janusdoc repository (src/lib/embeddings.ts).

Modelling conventions:
* JavaScript numbers are modelled as real numbers `ℝ`; vectors as `List ℝ`.
* A JavaScript function that can `throw` is modelled with `Except`.
* The `while` loop of `chunkText` is modelled by a fuel-indexed recursion;
  a result of `none` means the loop performs more iterations than the given
  fuel, and `(∀ fuel, ... = none)` means the loop never terminates.
* `Array.prototype.slice` (which accepts negative indices) is modelled by
  `jsSlice`, following the ECMAScript specification of `slice`.
* `String.prototype.split(/\s+/)` is modelled by `splitWS`: it splits on
  maximal runs of whitespace, keeping an empty piece before a leading run
  and after a trailing run, exactly as the JavaScript regex split does.
* `Array.prototype.sort` is stable (ECMAScript 2019); with the comparator
  `(a, b) => b.similarity - a.similarity` it is the stable descending sort
  by similarity, modelled by `List.insertionSort` with relation `simDesc`
  (insertion sort in Mathlib's formulation is stable for this relation).
-/

namespace Janusdoc

/-- A chunk of a document with its embedding (interface DocChunk). -/
structure DocChunk where
  content : String
  embedding : List ℝ

/-- A document with its chunks and embeddings (interface EmbeddedDoc). -/
structure EmbeddedDoc where
  path : String
  chunks : List DocChunk

/-- The embeddings storage format (interface EmbeddingsStore). -/
structure EmbeddingsStore where
  model : String
  generatedAt : String
  documents : List EmbeddedDoc

/-- A search result with similarity score (interface SearchResult). -/
structure SearchResult where
  path : String
  content : String
  similarity : ℝ

/-- Helper for `splitWS`: walks the character list; the second argument is
`some cur` while accumulating the current piece (reversed), and `none`
immediately after a whitespace run has been consumed and its piece emitted.
When the input ends inside (or right after) a whitespace run, the empty
piece after the final match is emitted, as JavaScript's split does. -/
def splitWSAux : List Char → Option (List Char) → List String
  | [], none => [""]
  | [], some cur => [String.mk cur.reverse]
  | c :: cs, none =>
    if c.isWhitespace then splitWSAux cs none
    else splitWSAux cs (some [c])
  | c :: cs, some cur =>
    if c.isWhitespace then String.mk cur.reverse :: splitWSAux cs none
    else splitWSAux cs (some (c :: cur))

/-- Model of JavaScript `text.split(/\s+/)`: split on maximal whitespace
runs; a leading run yields an empty first piece, a trailing run an empty
last piece, and the empty string yields `[""]`. -/
def splitWS (s : String) : List String :=
  splitWSAux s.data (some [])

/-- Model of `Array.prototype.slice(s, e)` per the ECMAScript spec:
negative indices count from the end, and both indices are clamped to
`[0, length]`. -/
def jsSlice {α : Type _} (l : List α) (s e : Int) : List α :=
  let len : Int := l.length
  let s2 := if s < 0 then max (len + s) 0 else min s len
  let e2 := if e < 0 then max (len + e) 0 else min e len
  (l.drop s2.toNat).take (e2 - s2).toNat

/-- The `while (start < words.length)` loop of `chunkText`, fuel-indexed.
Each fuel step is one loop iteration:
`end = Math.min(start + chunkSize, words.length)`, push
`words.slice(start, end).join(" ")`, break if `end >= words.length`,
else `start = end - overlap`. `start` is an `Int` because in JavaScript
`end - overlap` can go negative when `overlap` is large. -/
def chunkLoop (words : List String) (chunkSize overlap : Nat) :
    Nat → Int → List String → Option (List String)
  | 0, _, _ => none
  | fuel + 1, start, chunks =>
    if start < (words.length : Int) then
      let e : Int := min (start + (chunkSize : Int)) (words.length : Int)
      let chunk := String.intercalate " " (jsSlice words start e)
      let chunks2 := chunks ++ [chunk]
      if (words.length : Int) ≤ e then some chunks2
      else chunkLoop words chunkSize overlap fuel (e - (overlap : Int)) chunks2
    else some chunks

/-- Model of `chunkText(text, chunkSize, overlap)` (source defaults:
chunkSize = 500, overlap = 50): split on whitespace; if the word count is
at most `chunkSize` return `[text]` unchanged, otherwise run the sliding
window loop. `fuel` bounds the number of loop iterations; `none` means the
loop did not finish within `fuel` iterations. -/
def chunkText (text : String) (chunkSize overlap fuel : Nat) :
    Option (List String) :=
  let words := splitWS text
  if words.length ≤ chunkSize then some [text]
  else chunkLoop words chunkSize overlap fuel 0 []

/-- The word-window at position `n`: the words of the chunk the loop pushes
when `start = n` (in the regime where `start` never goes negative). -/
def windowAt (words : List String) (cs n : Nat) : List String :=
  (words.drop n).take (min (n + cs) words.length - n)

/-- Closed-form description of the word windows produced by the chunk loop
from position `n`, used to characterise `chunkLoop` in the terminating
regime `overlap < chunkSize`. -/
def segsWords (words : List String) (cs ov : Nat) (n : Nat) : List (List String) :=
  if words.length ≤ min (n + cs) words.length ∨ cs ≤ ov then
    [windowAt words cs n]
  else
    windowAt words cs n :: segsWords words cs ov (n + cs - ov)
termination_by words.length - n
decreasing_by
  rename_i h
  push_neg at h
  obtain ⟨h1, h2⟩ := h
  have he : min (n + cs) words.length = n + cs := by omega
  omega

/-- The dot-product / squared-norm accumulation of the `for` loop of
`cosineSimilarity`; on equal-length vectors it is the usual dot product. -/
def dotProduct : List ℝ → List ℝ → ℝ
  | a :: as, b :: bs => a * b + dotProduct as bs
  | _, _ => 0

/-- Model of `cosineSimilarity(a, b)`: throws "Vectors must have the same
length" when the lengths differ; otherwise returns 0 when
`sqrt(normA) * sqrt(normB) = 0`, else `dot / (sqrt(normA) * sqrt(normB))`. -/
noncomputable def cosineSimilarity (a b : List ℝ) : Except String ℝ :=
  if a.length ≠ b.length then
    .error "Vectors must have the same length"
  else if Real.sqrt (dotProduct a a) * Real.sqrt (dotProduct b b) = 0 then
    .ok 0
  else
    .ok (dotProduct a b / (Real.sqrt (dotProduct a a) * Real.sqrt (dotProduct b b)))

/-- The descending-similarity ordering used by
`results.sort((a, b) => b.similarity - a.similarity)`. -/
def simDesc (a b : SearchResult) : Prop := b.similarity ≤ a.similarity

noncomputable instance : DecidableRel simDesc :=
  fun a b => Real.decidableLE b.similarity a.similarity

instance : IsTotal SearchResult simDesc :=
  ⟨fun a b => le_total b.similarity a.similarity⟩

instance : IsTrans SearchResult simDesc :=
  ⟨fun _ _ _ h1 h2 => le_trans h2 h1⟩

/-- The inner loop of `searchSimilarDocs` over the chunks of one document:
computes each chunk's similarity (propagating a thrown error) and keeps
the chunks with `similarity >= threshold`, in chunk order. -/
noncomputable def collectChunks (q : List ℝ) (p : String) (thr : ℝ) :
    List DocChunk → Except String (List SearchResult)
  | [] => .ok []
  | c :: cs =>
    match cosineSimilarity q c.embedding with
    | .error e => .error e
    | .ok s =>
      match collectChunks q p thr cs with
      | .error e => .error e
      | .ok rest => .ok (if thr ≤ s then ⟨p, c.content, s⟩ :: rest else rest)

/-- The outer loop of `searchSimilarDocs` over all documents. -/
noncomputable def collectDocs (q : List ℝ) (thr : ℝ) :
    List EmbeddedDoc → Except String (List SearchResult)
  | [] => .ok []
  | d :: ds =>
    match collectChunks q d.path thr d.chunks with
    | .error e => .error e
    | .ok rs =>
      match collectDocs q thr ds with
      | .error e => .error e
      | .ok rest => .ok (rs ++ rest)

/-- The dedup pass of `searchSimilarDocs`: keep the first result for each
document path, tracking the `seen` set of paths. -/
def dedupe : List SearchResult → List String → List SearchResult
  | [], _ => []
  | r :: rs, seen =>
    if r.path ∈ seen then dedupe rs seen
    else r :: dedupe rs (r.path :: seen)

/-- Model of `searchSimilarDocs(queryEmbedding, embeddedDocs, topN,
threshold)` (source defaults: topN = 5, threshold = 0.5): score every
chunk, keep those at or above the threshold, stable-sort descending by
similarity, deduplicate by path keeping the first (highest) occurrence,
and truncate to `topN`. -/
noncomputable def searchSimilarDocs (q : List ℝ) (docs : List EmbeddedDoc)
    (topN : Nat) (threshold : ℝ) : Except String (List SearchResult) :=
  match collectDocs q threshold docs with
  | .error e => .error e
  | .ok results =>
    .ok ((dedupe (List.insertionSort simDesc results) []).take topN)

/-- A JavaScript error value: Node.js errors carry a string `code`
(e.g. "ENOENT"); errors built by `new Error(message)` and `SyntaxError`s
from `JSON.parse` have no code. -/
structure JsError where
  code : Option String
  message : String
deriving DecidableEq

/-- The error `loadEmbeddings` throws when the index file is missing. -/
def indexNotFoundError : JsError :=
  ⟨none, "Embeddings not found. Run 'janusdoc init' first."⟩

/-- Model of `loadEmbeddings`: `readResult` is the outcome of
`fs.readFile(embeddingsPath)` and `parse` the behaviour of
`JSON.parse ... as EmbeddingsStore`. The `try`/`catch` wraps both: an
error whose code is "ENOENT" is replaced by `indexNotFoundError`, any
other error is rethrown unchanged. -/
def loadEmbeddings (readResult : Except JsError String)
    (parse : String → Except JsError EmbeddingsStore) :
    Except JsError EmbeddingsStore :=
  match (match readResult with
         | .error e => .error e
         | .ok content => parse content : Except JsError EmbeddingsStore) with
  | .ok store => .ok store
  | .error e =>
    if e.code = some "ENOENT" then .error indexNotFoundError else .error e

/-- JSON values, for the persisted index format written by
`saveEmbeddings` via `JSON.stringify` and read back by `JSON.parse`
(which round-trips plain string/number/array/object data unchanged). -/
inductive Json where
  | str (s : String)
  | num (x : ℝ)
  | arr (xs : List Json)
  | obj (fields : List (String × Json))

/-- JSON encoding of one chunk, as laid out by `saveEmbeddings`. -/
def encodeChunk (c : DocChunk) : Json :=
  .obj [("content", .str c.content), ("embedding", .arr (c.embedding.map .num))]

/-- JSON encoding of one embedded document. -/
def encodeDoc (d : EmbeddedDoc) : Json :=
  .obj [("path", .str d.path), ("chunks", .arr (d.chunks.map encodeChunk))]

/-- JSON encoding of the whole store, i.e. the value `saveEmbeddings`
writes: `{ model, generatedAt, documents }`. -/
def encodeStore (s : EmbeddingsStore) : Json :=
  .obj [("model", .str s.model), ("generatedAt", .str s.generatedAt),
        ("documents", .arr (s.documents.map encodeDoc))]

/-- The embedding model identifier constant (EMBEDDING_MODEL). -/
def EMBEDDING_MODEL : String := "text-embedding-3-small"

/-- Model of `saveEmbeddings(embeddedDocs)`: the JSON value written to the
embeddings file, with the fixed model identifier and the generation
timestamp `now` (`new Date().toISOString()`). -/
def saveEmbeddings (embeddedDocs : List EmbeddedDoc) (now : String) : Json :=
  encodeStore ⟨EMBEDDING_MODEL, now, embeddedDocs⟩

/-- Decode a JSON value as a number. -/
def decodeNum : Json → Option ℝ
  | .num x => some x
  | _ => none

/-- Decode every element of a JSON list, failing if any element fails. -/
def decodeList {α : Type _} (dec : Json → Option α) : List Json → Option (List α)
  | [] => some []
  | j :: js =>
    match dec j, decodeList dec js with
    | some a, some rest => some (a :: rest)
    | _, _ => none

/-- Decode one chunk from its JSON object. -/
def decodeChunk : Json → Option DocChunk
  | .obj fields =>
    match fields.lookup "content", fields.lookup "embedding" with
    | some (.str content), some (.arr es) =>
      match decodeList decodeNum es with
      | some embedding => some ⟨content, embedding⟩
      | none => none
    | _, _ => none
  | _ => none

/-- Decode one embedded document from its JSON object. -/
def decodeDoc : Json → Option EmbeddedDoc
  | .obj fields =>
    match fields.lookup "path", fields.lookup "chunks" with
    | some (.str p), some (.arr cs) =>
      match decodeList decodeChunk cs with
      | some chunks => some ⟨p, chunks⟩
      | none => none
    | _, _ => none
  | _ => none

/-- Model of reading the persisted file back: `JSON.parse` of the stored
text yields the stored JSON value, which the loader uses as an
`EmbeddingsStore`; this decoder checks that structural shape. -/
def parseStore : Json → Option EmbeddingsStore
  | .obj fields =>
    match fields.lookup "model", fields.lookup "generatedAt",
          fields.lookup "documents" with
    | some (.str m), some (.str t), some (.arr ds) =>
      match decodeList decodeDoc ds with
      | some docs => some ⟨m, t, docs⟩
      | none => none
    | _, _, _ => none
  | _ => none

/-- The query vector of the worked retrieval scenario: a unit vector, so
that the cosine similarity against a unit vector `[x, y]` is exactly `x`. -/
noncomputable def exampleQuery : List ℝ := [1, 0]

/-- Scenario document "a.md": two chunks with similarity 0.9 and 0.4 to
`exampleQuery` (both chunk vectors are unit vectors). -/
noncomputable def exampleDocA : EmbeddedDoc :=
  ⟨"a.md", [⟨"a1", [0.9, Real.sqrt 0.19]⟩, ⟨"a2", [0.4, Real.sqrt 0.84]⟩]⟩

/-- Scenario document "b.md": one chunk with similarity 0.6 to
`exampleQuery`. -/
noncomputable def exampleDocB : EmbeddedDoc :=
  ⟨"b.md", [⟨"b1", [0.6, 0.8]⟩]⟩

/-! ### Lemmas about the chunk loop -/

theorem jsSlice_nat {α : Type _} (l : List α) (n e : Nat)
    (hn : n ≤ l.length) (he : e ≤ l.length) :
    jsSlice l (n : Int) (e : Int) = (l.drop n).take (e - n) := by
  have h1 : ¬((n : Int) < 0) := by omega
  have h2 : ¬((e : Int) < 0) := by omega
  have h3 : min (n : Int) (l.length : Int) = (n : Int) := by omega
  have h4 : min (e : Int) (l.length : Int) = (e : Int) := by omega
  simp only [jsSlice, if_neg h1, if_neg h2, h3, h4]
  have h5 : ((n : Int)).toNat = n := by omega
  have h6 : ((e : Int) - (n : Int)).toNat = e - n := by omega
  rw [h5, h6]

theorem segsWords_cons (words : List String) (cs ov n : Nat) :
    ∃ rest, segsWords words cs ov n = windowAt words cs n :: rest := by
  rw [segsWords]
  by_cases h : words.length ≤ min (n + cs) words.length ∨ cs ≤ ov
  · exact ⟨[], if_pos h⟩
  · exact ⟨_, if_neg h⟩

theorem chunkLoop_eq_segsWords (words : List String) (cs ov : Nat) (hov : ov < cs) :
    ∀ fuel n acc, n < words.length → words.length - n ≤ fuel →
    chunkLoop words cs ov fuel (n : Int) acc =
      some (acc ++ (segsWords words cs ov n).map (String.intercalate " ")) := by
  intro fuel
  induction fuel with
  | zero => intro n acc hn hf; omega
  | succ fuel ih =>
    intro n acc hn hf
    have hlt : (n : Int) < (words.length : Int) := by exact_mod_cast hn
    have hcast : min ((n : Int) + (cs : Int)) (words.length : Int) =
        ((min (n + cs) words.length : Nat) : Int) := by
      push_cast
      omega
    rw [chunkLoop]
    simp only [if_pos hlt, hcast]
    rw [jsSlice_nat words n (min (n + cs) words.length) (le_of_lt hn) (min_le_right _ _)]
    by_cases hend : words.length ≤ min (n + cs) words.length
    · have hle : (words.length : Int) ≤ ((min (n + cs) words.length : Nat) : Int) := by
        exact_mod_cast hend
      rw [if_pos hle, segsWords, if_pos (Or.inl hend)]
      simp [windowAt]
    · have hlt2 : ¬ ((words.length : Int) ≤ ((min (n + cs) words.length : Nat) : Int)) := by
        intro h
        exact hend (by exact_mod_cast h)
      rw [if_neg hlt2]
      have hmin : min (n + cs) words.length = n + cs := by omega
      have hn' : ((min (n + cs) words.length : Nat) : Int) - (ov : Int) =
          ((n + cs - ov : Nat) : Int) := by
        rw [hmin]
        omega
      conv_rhs => rw [segsWords]
      rw [if_neg (not_or.mpr ⟨hend, by omega⟩)]
      rw [hn', ih (n + cs - ov) _ (by omega) (by omega)]
      simp [windowAt]

theorem chunkLoop_none (words : List String) (cs ov : Nat)
    (hc : cs < words.length) (hov : cs ≤ ov) :
    ∀ fuel (start : Int) acc, start ≤ 0 →
    chunkLoop words cs ov fuel start acc = none := by
  intro fuel
  induction fuel with
  | zero => intro start acc _; rfl
  | succ fuel ih =>
    intro start acc hs
    have hlt : start < (words.length : Int) := by omega
    have hmin : min (start + (cs : Int)) (words.length : Int) = start + (cs : Int) := by
      omega
    rw [chunkLoop]
    simp only [if_pos hlt, hmin]
    have hnotend : ¬ ((words.length : Int) ≤ start + (cs : Int)) := by omega
    rw [if_neg hnotend]
    exact ih _ _ (by omega)

/-- Claim C3: for every text whose whitespace-split word count is at most
`chunkSize`, `chunkText` returns exactly one segment, and that segment is
the original input text unchanged. -/
theorem chunkText_short (text : String) (chunkSize overlap fuel : Nat)
    (h : (splitWS text).length ≤ chunkSize) :
    chunkText text chunkSize overlap fuel = some [text] := by
  unfold chunkText
  rw [if_pos h]

theorem chunkText_short_witness :
    (splitWS "hello world").length ≤ 500 ∧
      chunkText "hello world" 500 50 0 = some ["hello world"] :=
  ⟨by decide, chunkText_short "hello world" 500 50 0 (by decide)⟩

/-- Claim C9: whenever `overlap < chunkSize` the chunking loop terminates
(any fuel of at least the word count suffices), whereas for a text with
word count exceeding `chunkSize` and `overlap >= chunkSize` the sliding
window fails to advance: the loop never finishes, whatever the fuel. -/
theorem chunkText_termination :
    (∀ (text : String) (cs ov fuel : Nat), ov < cs →
      (splitWS text).length ≤ fuel →
      ∃ segs, chunkText text cs ov fuel = some segs) ∧
    (∀ (text : String) (cs ov fuel : Nat), cs < (splitWS text).length →
      cs ≤ ov → chunkText text cs ov fuel = none) := by
  constructor
  · intro text cs ov fuel hov hfuel
    unfold chunkText
    by_cases h : (splitWS text).length ≤ cs
    · exact ⟨[text], if_pos h⟩
    · rw [if_neg h]
      push_neg at h
      refine ⟨(segsWords (splitWS text) cs ov 0).map (String.intercalate " "), ?_⟩
      have := chunkLoop_eq_segsWords (splitWS text) cs ov hov fuel 0 [] (by omega) (by omega)
      simpa using this
  · intro text cs ov fuel hc hov
    unfold chunkText
    rw [if_neg (by omega)]
    exact chunkLoop_none (splitWS text) cs ov hc hov fuel 0 [] le_rfl

theorem windowAt_length (words : List String) (cs n : Nat) (h : n + cs < words.length) :
    (windowAt words cs n).length = cs := by
  have hmin : min (n + cs) words.length = n + cs := by omega
  simp [windowAt, hmin]
  omega

theorem segsWords_chain (words : List String) (cs ov : Nat) (hov : ov < cs) :
    ∀ n, n < words.length →
    List.Chain'
      (fun w1 w2 => w1.length = cs ∧ w1.drop (cs - ov) = w2.take ov ∧ ov < w2.length)
      (segsWords words cs ov n) := by
  have H : ∀ k n, words.length - n = k → n < words.length →
      List.Chain'
        (fun w1 w2 => w1.length = cs ∧ w1.drop (cs - ov) = w2.take ov ∧ ov < w2.length)
        (segsWords words cs ov n) := by
    intro k
    induction k using Nat.strong_induction_on with
    | _ k ih =>
      intro n hk hn
      rw [segsWords]
      by_cases hbase : words.length ≤ min (n + cs) words.length ∨ cs ≤ ov
      · rw [if_pos hbase]
        exact List.chain'_singleton _
      · rw [if_neg hbase]
        rw [not_or] at hbase
        obtain ⟨hend, -⟩ := hbase
        have hcs : n + cs < words.length := by omega
        obtain ⟨rest, hrest⟩ := segsWords_cons words cs ov (n + cs - ov)
        rw [hrest, List.chain'_cons]
        have hmin : min (n + cs) words.length = n + cs := by omega
        have hlen2 : (windowAt words cs (n + cs - ov)).length =
            min cs (words.length - (n + cs - ov)) := by
          simp [windowAt]
          omega
        refine ⟨⟨windowAt_length words cs n hcs, ?_, ?_⟩, ?_⟩
        · simp only [windowAt, hmin]
          have h1 : n + cs - n = cs := by omega
          rw [h1, List.drop_take, List.drop_drop, List.take_take]
          have h2 : cs - (cs - ov) = ov := by omega
          have h3 : n + (cs - ov) = n + cs - ov := by omega
          rw [h2, h3]
          have h4 : min ov (min (n + cs - ov + cs) words.length - (n + cs - ov)) = ov := by
            omega
          rw [h4]
        · rw [hlen2]
          omega
        · rw [← hrest]
          exact ih (words.length - (n + cs - ov)) (by omega) (n + cs - ov) rfl (by omega)
  intro n hn
  exact H (words.length - n) n rfl hn

/-- Claim C4: for a text whose word count exceeds `chunkSize`, and any
`overlap < chunkSize`, `chunkText` returns at least two segments; each
segment is the words of a window joined by single spaces, every non-final
window has exactly `chunkSize` words, and the last `overlap` words of each
window equal the first `overlap` words of the next (the final window may
be shorter than `chunkSize` but has more than `overlap` words). -/
theorem chunkText_overlap (text : String) (cs ov fuel : Nat)
    (h1 : cs < (splitWS text).length) (h2 : ov < cs)
    (h3 : (splitWS text).length ≤ fuel) :
    ∃ wss : List (List String),
      chunkText text cs ov fuel = some (wss.map (String.intercalate " ")) ∧
      2 ≤ wss.length ∧
      List.Chain'
        (fun w1 w2 => w1.length = cs ∧ w1.drop (cs - ov) = w2.take ov ∧ ov < w2.length)
        wss := by
  refine ⟨segsWords (splitWS text) cs ov 0, ?_, ?_, ?_⟩
  · unfold chunkText
    rw [if_neg (by omega)]
    have := chunkLoop_eq_segsWords (splitWS text) cs ov h2 fuel 0 [] (by omega) (by omega)
    simpa using this
  · rw [segsWords]
    have hc : ¬ ((splitWS text).length ≤ min (0 + cs) (splitWS text).length ∨ cs ≤ ov) := by
      rw [not_or]
      constructor <;> omega
    rw [if_neg hc]
    obtain ⟨rest, hrest⟩ := segsWords_cons (splitWS text) cs ov (0 + cs - ov)
    rw [hrest]
    simp
  · exact segsWords_chain (splitWS text) cs ov h2 0 (by omega)

theorem chunkText_overlap_witness :
    ∃ wss : List (List String),
      chunkText "a b c d e" 2 1 5 = some (wss.map (String.intercalate " ")) ∧
      2 ≤ wss.length ∧
      List.Chain'
        (fun w1 w2 => w1.length = 2 ∧ w1.drop (2 - 1) = w2.take 1 ∧ 1 < w2.length)
        wss :=
  chunkText_overlap "a b c d e" 2 1 5 (by decide) (by decide) (by decide)

theorem head?_take_pos {α : Type _} (l : List α) (k : Nat) (hk : 0 < k) :
    (l.take k).head? = l.head? := by
  cases l with
  | nil => simp
  | cons a l =>
    cases k with
    | zero => omega
    | succ k => simp

theorem getLast?_drop_of_lt {α : Type _} :
    ∀ (m : Nat) (l : List α), m < l.length → (l.drop m).getLast? = l.getLast? := by
  intro m
  induction m with
  | zero => intro l _; simp
  | succ m ih =>
    intro l h
    cases l with
    | nil => simp at h
    | cons a l =>
      simp only [List.drop_succ_cons]
      rw [ih l (by simp at h; omega)]
      cases l with
      | nil => simp at h
      | cons b l2 => rw [List.getLast?_cons_cons]

theorem mem_windowAt (words : List String) (cs n i : Nat) (h1 : n ≤ i)
    (h2 : i < min (n + cs) words.length) (hi : i < words.length) :
    words[i] ∈ windowAt words cs n := by
  have hlt : i - n < (windowAt words cs n).length := by
    simp [windowAt]
    omega
  have heq : (windowAt words cs n)[i - n] = words[i] := by
    simp only [windowAt]
    rw [List.getElem_take, List.getElem_drop]
    congr 1
    omega
  rw [← heq]
  exact List.getElem_mem hlt

theorem segsWords_coverage (words : List String) (cs ov : Nat) (hov : ov < cs) :
    ∀ n i, n ≤ i → ∀ hi : i < words.length,
    ∃ ws ∈ segsWords words cs ov n, words[i] ∈ ws := by
  have H : ∀ k n, words.length - n = k → ∀ i, n ≤ i → ∀ hi : i < words.length,
      ∃ ws ∈ segsWords words cs ov n, words[i] ∈ ws := by
    intro k
    induction k using Nat.strong_induction_on with
    | _ k ih =>
      intro n hk i hni hi
      rw [segsWords]
      by_cases hbase : words.length ≤ min (n + cs) words.length ∨ cs ≤ ov
      · rw [if_pos hbase]
        have hminlen : words.length ≤ min (n + cs) words.length := by
          rcases hbase with h | h
          · exact h
          · omega
        exact ⟨windowAt words cs n, by simp,
          mem_windowAt words cs n i hni (by omega) hi⟩
      · rw [if_neg hbase]
        rw [not_or] at hbase
        by_cases hcase : i < min (n + cs) words.length
        · exact ⟨windowAt words cs n, List.mem_cons_self _ _,
            mem_windowAt words cs n i hni hcase hi⟩
        · obtain ⟨ws, hws, hmem⟩ :=
            ih (words.length - (n + cs - ov)) (by omega) (n + cs - ov) rfl i (by omega) hi
          exact ⟨ws, List.mem_cons_of_mem _ hws, hmem⟩
  intro n i hni hi
  exact H (words.length - n) n rfl i hni hi

theorem segsWords_getLast (words : List String) (cs ov : Nat) (hov : ov < cs) :
    ∀ n, n < words.length → ∃ m, m < words.length ∧
    (segsWords words cs ov n).getLast? = some (words.drop m) := by
  have H : ∀ k n, words.length - n = k → n < words.length → ∃ m, m < words.length ∧
      (segsWords words cs ov n).getLast? = some (words.drop m) := by
    intro k
    induction k using Nat.strong_induction_on with
    | _ k ih =>
      intro n hk hn
      rw [segsWords]
      by_cases hbase : words.length ≤ min (n + cs) words.length ∨ cs ≤ ov
      · rw [if_pos hbase]
        refine ⟨n, hn, ?_⟩
        have hwin : windowAt words cs n = words.drop n := by
          simp only [windowAt]
          apply List.take_of_length_le
          simp
          omega
        simp [hwin]
      · rw [if_neg hbase]
        rw [not_or] at hbase
        obtain ⟨m, hm, hlast⟩ :=
          ih (words.length - (n + cs - ov)) (by omega) (n + cs - ov) rfl (by omega)
        refine ⟨m, hm, ?_⟩
        obtain ⟨rest, hrest⟩ := segsWords_cons words cs ov (n + cs - ov)
        rw [hrest] at hlast ⊢
        rw [List.getLast?_cons_cons]
        exact hlast
  intro n hn
  exact H (words.length - n) n rfl hn

/-- Claim C10: in the multi-chunk regime (word count above `chunkSize`,
`overlap < chunkSize`), the windows returned by `chunkText` cover the
whole word sequence: every word is in at least one window, the first
window starts at the first word, and the last window ends at the last
word. -/
theorem chunkText_coverage (text : String) (cs ov fuel : Nat)
    (h1 : cs < (splitWS text).length) (h2 : ov < cs)
    (h3 : (splitWS text).length ≤ fuel) :
    ∃ wss : List (List String),
      chunkText text cs ov fuel = some (wss.map (String.intercalate " ")) ∧
      (∀ i, ∀ hi : i < (splitWS text).length, ∃ ws ∈ wss, (splitWS text)[i] ∈ ws) ∧
      (∃ w0 rest, wss = w0 :: rest ∧ w0.head? = (splitWS text).head?) ∧
      (∃ wl, wss.getLast? = some wl ∧ wl.getLast? = (splitWS text).getLast?) := by
  refine ⟨segsWords (splitWS text) cs ov 0, ?_, ?_, ?_, ?_⟩
  · unfold chunkText
    rw [if_neg (by omega)]
    have := chunkLoop_eq_segsWords (splitWS text) cs ov h2 fuel 0 [] (by omega) (by omega)
    simpa using this
  · intro i hi
    exact segsWords_coverage (splitWS text) cs ov h2 0 i (by omega) hi
  · obtain ⟨rest, hrest⟩ := segsWords_cons (splitWS text) cs ov 0
    refine ⟨windowAt (splitWS text) cs 0, rest, hrest, ?_⟩
    simp only [windowAt, List.drop_zero, Nat.sub_zero, Nat.zero_add]
    exact head?_take_pos _ _ (by omega)
  · obtain ⟨m, hm, hlast⟩ := segsWords_getLast (splitWS text) cs ov h2 0 (by omega)
    exact ⟨(splitWS text).drop m, hlast, getLast?_drop_of_lt m (splitWS text) hm⟩

theorem chunkText_coverage_witness :
    ∃ wss : List (List String),
      chunkText "a b c d e" 2 1 5 = some (wss.map (String.intercalate " ")) ∧
      (∀ i, ∀ hi : i < (splitWS "a b c d e").length,
        ∃ ws ∈ wss, (splitWS "a b c d e")[i] ∈ ws) ∧
      (∃ w0 rest, wss = w0 :: rest ∧ w0.head? = (splitWS "a b c d e").head?) ∧
      (∃ wl, wss.getLast? = some wl ∧ wl.getLast? = (splitWS "a b c d e").getLast?) :=
  chunkText_coverage "a b c d e" 2 1 5 (by decide) (by decide) (by decide)

theorem chunkText_termination_witness :
    (∃ segs, chunkText "a b c" 2 1 3 = some segs) ∧
      chunkText "a b c" 1 1 7 = none :=
  ⟨chunkText_termination.1 "a b c" 2 1 3 (by decide) (by decide),
   chunkText_termination.2 "a b c" 1 1 7 (by decide) (by decide)⟩

/-! ### Lemmas about cosine similarity -/

theorem dotProduct_self_nonneg : ∀ a : List ℝ, 0 ≤ dotProduct a a := by
  intro a
  induction a with
  | nil => simp [dotProduct]
  | cons x as ih =>
    simp only [dotProduct]
    nlinarith [sq_nonneg x]

theorem dotProduct_sq_le :
    ∀ (a b : List ℝ), (dotProduct a b) ^ 2 ≤ dotProduct a a * dotProduct b b := by
  intro a
  induction a with
  | nil =>
    intro b
    simp [dotProduct]
  | cons x as ih =>
    intro b
    cases b with
    | nil =>
      simp [dotProduct]
    | cons y bs =>
      simp only [dotProduct]
      have hA := dotProduct_self_nonneg as
      have hB := dotProduct_self_nonneg bs
      have hcs := ih bs
      by_cases hA0 : dotProduct as as = 0
      · have hd2 : (dotProduct as bs) ^ 2 ≤ 0 := by
          rw [hA0] at hcs
          linarith [hcs]
        have hd : dotProduct as bs = 0 := by
          nlinarith [sq_nonneg (dotProduct as bs)]
        rw [hA0, hd]
        nlinarith [mul_nonneg (sq_nonneg x) hB]
      · have hApos : 0 < dotProduct as as := lt_of_le_of_ne hA (Ne.symm hA0)
        nlinarith [sq_nonneg (dotProduct as bs * x - dotProduct as as * y),
          hcs, hApos, hB, sq_nonneg x, mul_nonneg hA hB]

theorem dotProduct_abs_le (a b : List ℝ) :
    |dotProduct a b| ≤ Real.sqrt (dotProduct a a) * Real.sqrt (dotProduct b b) := by
  have h1 : Real.sqrt ((dotProduct a b) ^ 2) ≤
      Real.sqrt (dotProduct a a * dotProduct b b) :=
    Real.sqrt_le_sqrt (dotProduct_sq_le a b)
  rwa [Real.sqrt_sq_eq_abs, Real.sqrt_mul (dotProduct_self_nonneg a)] at h1

theorem dotProduct_self_zero (a : List ℝ) (h : ∀ x ∈ a, x = 0) :
    dotProduct a a = 0 := by
  induction a with
  | nil => simp [dotProduct]
  | cons x as ih =>
    simp only [dotProduct]
    have hx : x = 0 := h x (List.mem_cons_self _ _)
    have has : dotProduct as as = 0 := ih fun y hy => h y (List.mem_cons_of_mem _ hy)
    rw [hx, has]
    ring

theorem cosineSimilarity_ok_of_length (a b : List ℝ) (h : a.length = b.length) :
    ∃ v, cosineSimilarity a b = .ok v := by
  unfold cosineSimilarity
  rw [if_neg (by omega)]
  by_cases hm : Real.sqrt (dotProduct a a) * Real.sqrt (dotProduct b b) = 0
  · exact ⟨0, by rw [if_pos hm]⟩
  · exact ⟨_, by rw [if_neg hm]⟩

theorem cosineSimilarity_ok_bounds (a b : List ℝ) (v : ℝ)
    (h : cosineSimilarity a b = .ok v) : -1 ≤ v ∧ v ≤ 1 := by
  unfold cosineSimilarity at h
  by_cases hl : a.length ≠ b.length
  · rw [if_pos hl] at h
    exact absurd h (by simp)
  · rw [if_neg hl] at h
    by_cases hm : Real.sqrt (dotProduct a a) * Real.sqrt (dotProduct b b) = 0
    · rw [if_pos hm] at h
      have hv : v = 0 := by
        injection h with h2
        exact h2.symm
      rw [hv]
      norm_num
    · rw [if_neg hm] at h
      have hv : v = dotProduct a b /
          (Real.sqrt (dotProduct a a) * Real.sqrt (dotProduct b b)) := by
        injection h with h2
        exact h2.symm
      have hpos : 0 < Real.sqrt (dotProduct a a) * Real.sqrt (dotProduct b b) := by
        have h0 : 0 ≤ Real.sqrt (dotProduct a a) * Real.sqrt (dotProduct b b) :=
          mul_nonneg (Real.sqrt_nonneg _) (Real.sqrt_nonneg _)
        rcases lt_or_eq_of_le h0 with h3 | h3
        · exact h3
        · exact absurd h3.symm hm
      have habs : |v| ≤ 1 := by
        rw [hv, abs_div, abs_of_pos hpos]
        rw [div_le_one hpos]
        exact dotProduct_abs_le a b
      exact abs_le.mp habs

/-- Claim C5: on equal-length vectors, `cosineSimilarity` returns a value
in `[-1, 1]`; when either vector is all-zero (zero magnitude) it returns
exactly 0 instead of failing. -/
theorem cosineSimilarity_range (a b : List ℝ) (h : a.length = b.length) :
    (∃ v, cosineSimilarity a b = .ok v ∧ -1 ≤ v ∧ v ≤ 1) ∧
    (((∀ x ∈ a, x = 0) ∨ (∀ x ∈ b, x = 0)) → cosineSimilarity a b = .ok 0) := by
  constructor
  · obtain ⟨v, hv⟩ := cosineSimilarity_ok_of_length a b h
    obtain ⟨h1, h2⟩ := cosineSimilarity_ok_bounds a b v hv
    exact ⟨v, hv, h1, h2⟩
  · intro hz
    have hm : Real.sqrt (dotProduct a a) * Real.sqrt (dotProduct b b) = 0 := by
      rcases hz with hz | hz
      · rw [dotProduct_self_zero a hz, Real.sqrt_zero, zero_mul]
      · rw [dotProduct_self_zero b hz, Real.sqrt_zero, mul_zero]
    unfold cosineSimilarity
    rw [if_neg (by omega), if_pos hm]

theorem cosineSimilarity_range_witness :
    cosineSimilarity [0, 0] [3, 4] = .ok 0 ∧
      (∃ v, cosineSimilarity [0, 0] [3, 4] = .ok v ∧ -1 ≤ v ∧ v ≤ 1) :=
  ⟨(cosineSimilarity_range [0, 0] [3, 4] rfl).2
      (Or.inl (by intro x hx; simpa using hx)),
   (cosineSimilarity_range [0, 0] [3, 4] rfl).1⟩

/-- Claim C6: `cosineSimilarity` fails with the dimension-mismatch error
exactly when the two lengths differ, and on equal-length vectors it always
returns a value. -/
theorem cosineSimilarity_mismatch (a b : List ℝ) :
    (cosineSimilarity a b = .error "Vectors must have the same length" ↔
      a.length ≠ b.length) ∧
    (a.length = b.length → ∃ v, cosineSimilarity a b = .ok v) := by
  constructor
  · constructor
    · intro h hlen
      obtain ⟨v, hv⟩ := cosineSimilarity_ok_of_length a b hlen
      rw [h] at hv
      exact absurd hv (by simp)
    · intro hlen
      unfold cosineSimilarity
      rw [if_pos hlen]
  · exact cosineSimilarity_ok_of_length a b

theorem cosineSimilarity_mismatch_witness :
    cosineSimilarity [1, 2, 3] [1, 2] = .error "Vectors must have the same length" ∧
      ∃ v, cosineSimilarity [1, 0] [0, 1] = .ok v :=
  ⟨(cosineSimilarity_mismatch [1, 2, 3] [1, 2]).1.mpr (by simp),
   (cosineSimilarity_mismatch [1, 0] [0, 1]).2 rfl⟩

/-! ### Lemmas about the retriever -/

theorem collectChunks_mem (q : List ℝ) (p : String) (thr : ℝ) :
    ∀ (cs : List DocChunk) (rs : List SearchResult),
    collectChunks q p thr cs = .ok rs → ∀ r ∈ rs,
      thr ≤ r.similarity ∧ r.path = p ∧
      ∃ c ∈ cs, cosineSimilarity q c.embedding = .ok r.similarity := by
  intro cs
  induction cs with
  | nil =>
    intro rs h r hr
    simp only [collectChunks] at h
    injection h with h2
    subst h2
    simp at hr
  | cons c cs ih =>
    intro rs h r hr
    rw [collectChunks] at h
    cases hcos : cosineSimilarity q c.embedding with
    | error e => rw [hcos] at h; simp at h
    | ok s =>
      rw [hcos] at h
      cases hrec : collectChunks q p thr cs with
      | error e => rw [hrec] at h; simp at h
      | ok rest =>
        rw [hrec] at h
        simp only at h
        injection h with h2
        by_cases hthr : thr ≤ s
        · rw [if_pos hthr] at h2
          subst h2
          rcases List.mem_cons.mp hr with hr1 | hr1
          · subst hr1
            exact ⟨hthr, rfl, c, List.mem_cons_self _ _, hcos⟩
          · obtain ⟨h3, h4, c2, hc2, h5⟩ := ih rest hrec r hr1
            exact ⟨h3, h4, c2, List.mem_cons_of_mem _ hc2, h5⟩
        · rw [if_neg hthr] at h2
          subst h2
          obtain ⟨h3, h4, c2, hc2, h5⟩ := ih rest hrec r hr
          exact ⟨h3, h4, c2, List.mem_cons_of_mem _ hc2, h5⟩

theorem collectChunks_complete (q : List ℝ) (p : String) (thr : ℝ) :
    ∀ (cs : List DocChunk) (rs : List SearchResult),
    collectChunks q p thr cs = .ok rs → ∀ c ∈ cs,
      ∃ s, cosineSimilarity q c.embedding = .ok s ∧
        (thr ≤ s → (⟨p, c.content, s⟩ : SearchResult) ∈ rs) := by
  intro cs
  induction cs with
  | nil => intro rs h c hc; simp at hc
  | cons c0 cs ih =>
    intro rs h c hc
    rw [collectChunks] at h
    cases hcos : cosineSimilarity q c0.embedding with
    | error e => rw [hcos] at h; simp at h
    | ok s0 =>
      rw [hcos] at h
      cases hrec : collectChunks q p thr cs with
      | error e => rw [hrec] at h; simp at h
      | ok rest =>
        rw [hrec] at h
        simp only at h
        injection h with h2
        rcases List.mem_cons.mp hc with hc1 | hc1
        · subst hc1
          refine ⟨s0, hcos, fun hthr => ?_⟩
          rw [← h2, if_pos hthr]
          exact List.mem_cons_self _ _
        · obtain ⟨s, hs, hmem⟩ := ih rest hrec c hc1
          refine ⟨s, hs, fun hthr => ?_⟩
          rw [← h2]
          by_cases hthr0 : thr ≤ s0
          · rw [if_pos hthr0]
            exact List.mem_cons_of_mem _ (hmem hthr)
          · rw [if_neg hthr0]
            exact hmem hthr

theorem collectDocs_mem (q : List ℝ) (thr : ℝ) :
    ∀ (docs : List EmbeddedDoc) (rs : List SearchResult),
    collectDocs q thr docs = .ok rs → ∀ r ∈ rs,
      thr ≤ r.similarity ∧ ∃ d ∈ docs, r.path = d.path ∧
        ∃ c ∈ d.chunks, cosineSimilarity q c.embedding = .ok r.similarity := by
  intro docs
  induction docs with
  | nil =>
    intro rs h r hr
    simp only [collectDocs] at h
    injection h with h2
    subst h2
    simp at hr
  | cons d ds ih =>
    intro rs h r hr
    rw [collectDocs] at h
    cases hchunks : collectChunks q d.path thr d.chunks with
    | error e => rw [hchunks] at h; simp at h
    | ok rs1 =>
      rw [hchunks] at h
      cases hrec : collectDocs q thr ds with
      | error e => rw [hrec] at h; simp at h
      | ok rest =>
        rw [hrec] at h
        simp only at h
        injection h with h2
        subst h2
        rcases List.mem_append.mp hr with hr1 | hr1
        · obtain ⟨h3, h4, c, hc, h5⟩ := collectChunks_mem q d.path thr d.chunks rs1 hchunks r hr1
          exact ⟨h3, d, List.mem_cons_self _ _, h4, c, hc, h5⟩
        · obtain ⟨h3, d2, hd2, h4, c, hc, h5⟩ := ih rest hrec r hr1
          exact ⟨h3, d2, List.mem_cons_of_mem _ hd2, h4, c, hc, h5⟩

theorem collectDocs_complete (q : List ℝ) (thr : ℝ) :
    ∀ (docs : List EmbeddedDoc) (rs : List SearchResult),
    collectDocs q thr docs = .ok rs → ∀ d ∈ docs, ∀ c ∈ d.chunks,
      ∃ s, cosineSimilarity q c.embedding = .ok s ∧
        (thr ≤ s → (⟨d.path, c.content, s⟩ : SearchResult) ∈ rs) := by
  intro docs
  induction docs with
  | nil => intro rs h d hd; simp at hd
  | cons d0 ds ih =>
    intro rs h d hd c hc
    rw [collectDocs] at h
    cases hchunks : collectChunks q d0.path thr d0.chunks with
    | error e => rw [hchunks] at h; simp at h
    | ok rs1 =>
      rw [hchunks] at h
      cases hrec : collectDocs q thr ds with
      | error e => rw [hrec] at h; simp at h
      | ok rest =>
        rw [hrec] at h
        simp only at h
        injection h with h2
        subst h2
        rcases List.mem_cons.mp hd with hd1 | hd1
        · subst hd1
          obtain ⟨s, hs, hmem⟩ := collectChunks_complete q d.path thr d.chunks rs1 hchunks c hc
          exact ⟨s, hs, fun hthr => List.mem_append.mpr (Or.inl (hmem hthr))⟩
        · obtain ⟨s, hs, hmem⟩ := ih rest hrec d hd1 c hc
          exact ⟨s, hs, fun hthr => List.mem_append.mpr (Or.inr (hmem hthr))⟩

theorem dedupe_sublist : ∀ (rs : List SearchResult) (seen : List String),
    List.Sublist (dedupe rs seen) rs := by
  intro rs
  induction rs with
  | nil => intro seen; simp [dedupe]
  | cons r rs ih =>
    intro seen
    rw [dedupe]
    by_cases h : r.path ∈ seen
    · rw [if_pos h]
      exact (ih seen).trans (List.sublist_cons_self _ _)
    · rw [if_neg h]
      exact (ih (r.path :: seen)).cons₂ r

theorem dedupe_not_seen : ∀ (rs : List SearchResult) (seen : List String)
    (r : SearchResult), r ∈ dedupe rs seen → r.path ∉ seen := by
  intro rs
  induction rs with
  | nil => intro seen r h; simp [dedupe] at h
  | cons r0 rs ih =>
    intro seen r h
    rw [dedupe] at h
    by_cases h0 : r0.path ∈ seen
    · rw [if_pos h0] at h
      exact ih seen r h
    · rw [if_neg h0] at h
      rcases List.mem_cons.mp h with h1 | h1
      · subst h1
        exact h0
      · have := ih (r0.path :: seen) r h1
        exact fun hs => this (List.mem_cons_of_mem _ hs)

theorem dedupe_nodup : ∀ (rs : List SearchResult) (seen : List String),
    ((dedupe rs seen).map (fun r => r.path)).Nodup := by
  intro rs
  induction rs with
  | nil => intro seen; simp [dedupe]
  | cons r0 rs ih =>
    intro seen
    rw [dedupe]
    by_cases h0 : r0.path ∈ seen
    · rw [if_pos h0]
      exact ih seen
    · rw [if_neg h0]
      simp only [List.map_cons, List.nodup_cons]
      refine ⟨?_, ih (r0.path :: seen)⟩
      intro hmem
      obtain ⟨r, hr, hpath⟩ := List.mem_map.mp hmem
      have := dedupe_not_seen rs (r0.path :: seen) r hr
      exact this (hpath ▸ List.mem_cons_self _ _)

theorem dedupe_max : ∀ (rs : List SearchResult) (seen : List String)
    (r : SearchResult), List.Sorted simDesc rs → r ∈ dedupe rs seen →
    ∀ r2 ∈ rs, r2.path = r.path → r2.similarity ≤ r.similarity := by
  intro rs
  induction rs with
  | nil => intro seen r _ h; simp [dedupe] at h
  | cons r0 rs ih =>
    intro seen r hsorted h r2 hr2 hpath
    have hsorted' := (List.sorted_cons.mp hsorted).2
    have hhead := (List.sorted_cons.mp hsorted).1
    rw [dedupe] at h
    by_cases h0 : r0.path ∈ seen
    · rw [if_pos h0] at h
      rcases List.mem_cons.mp hr2 with h1 | h1
      · subst h1
        have := dedupe_not_seen rs seen r h
        exact absurd (hpath ▸ h0) this
      · exact ih seen r hsorted' h r2 h1 hpath
    · rw [if_neg h0] at h
      rcases List.mem_cons.mp h with hr | hr
      · subst hr
        rcases List.mem_cons.mp hr2 with h1 | h1
        · rw [h1]
        · exact hhead r2 h1
      · have hnotseen := dedupe_not_seen rs (r0.path :: seen) r hr
        rcases List.mem_cons.mp hr2 with h1 | h1
        · subst h1
          exact absurd (hpath ▸ List.mem_cons_self _ _) hnotseen
        · exact ih (r0.path :: seen) r hsorted' hr r2 h1 hpath

theorem searchSimilarDocs_ok (q : List ℝ) (docs : List EmbeddedDoc)
    (topN : Nat) (thr : ℝ) (out : List SearchResult)
    (h : searchSimilarDocs q docs topN thr = .ok out) :
    ∃ rs, collectDocs q thr docs = .ok rs ∧
      out = (dedupe (List.insertionSort simDesc rs) []).take topN := by
  unfold searchSimilarDocs at h
  cases hc : collectDocs q thr docs with
  | error e => rw [hc] at h; simp at h
  | ok rs =>
    rw [hc] at h
    simp only at h
    injection h with h2
    exact ⟨rs, rfl, h2.symm⟩

/-- Claim C1: a successful `searchSimilarDocs` returns at most `topN`
results, with pairwise-distinct document paths, all with similarity at
least `threshold`; with `threshold = 1.1` (above the maximum possible
similarity) the returned sequence is empty. -/
theorem searchSimilarDocs_bounds (q : List ℝ) (docs : List EmbeddedDoc)
    (topN : Nat) (thr : ℝ) (out : List SearchResult)
    (h : searchSimilarDocs q docs topN thr = .ok out) :
    out.length ≤ topN ∧ ((out.map fun r => r.path).Nodup) ∧
    (∀ r ∈ out, thr ≤ r.similarity) ∧ (thr = 1.1 → out = []) := by
  obtain ⟨rs, hrs, hout⟩ := searchSimilarDocs_ok q docs topN thr out h
  have hmemout : ∀ r ∈ out, r ∈ rs := by
    intro r hr
    rw [hout] at hr
    have h1 : r ∈ dedupe (List.insertionSort simDesc rs) [] :=
      (List.take_sublist _ _).subset hr
    have h2 : r ∈ List.insertionSort simDesc rs :=
      (dedupe_sublist _ _).subset h1
    exact (List.perm_insertionSort simDesc rs).subset h2
  refine ⟨?_, ?_, ?_, ?_⟩
  · rw [hout]
    exact List.length_take_le _ _
  · rw [hout]
    exact List.Nodup.sublist ((List.take_sublist _ _).map _) (dedupe_nodup _ _)
  · intro r hr
    exact (collectDocs_mem q thr docs rs hrs r (hmemout r hr)).1
  · intro hthr
    subst hthr
    have hrsnil : rs = [] := by
      cases hrs2 : rs with
      | nil => rfl
      | cons r0 rs2 =>
        obtain ⟨h1, d, _, _, c, _, h5⟩ :=
          collectDocs_mem q 1.1 docs rs hrs r0 (hrs2 ▸ List.mem_cons_self _ _)
        have := (cosineSimilarity_ok_bounds q c.embedding r0.similarity h5).2
        linarith
    rw [hout, hrsnil]
    simp [dedupe, List.insertionSort]

theorem searchSimilarDocs_bounds_witness :
    searchSimilarDocs [1] [] 5 1.1 = .ok [] ∧
      ([] : List SearchResult).length ≤ 5 ∧
      ((([] : List SearchResult).map fun r => r.path).Nodup) ∧
      (∀ r ∈ ([] : List SearchResult), (1.1 : ℝ) ≤ r.similarity) ∧
      ((1.1 : ℝ) = 1.1 → ([] : List SearchResult) = []) := by
  have hok : searchSimilarDocs [1] [] 5 1.1 = .ok [] := by
    unfold searchSimilarDocs
    simp [collectDocs, dedupe, List.insertionSort]
  exact ⟨hok, searchSimilarDocs_bounds [1] [] 5 1.1 [] hok⟩

theorem cosineSimilarity_unit2 (x y : ℝ) (hxy : x * x + (y * y + 0) = 1) :
    cosineSimilarity [1, 0] [x, y] = .ok x := by
  unfold cosineSimilarity
  rw [if_neg (by simp)]
  simp only [dotProduct]
  have hA : (1 : ℝ) * 1 + (0 * 0 + 0) = 1 := by norm_num
  rw [hA, hxy]
  simp only [Real.sqrt_one, one_mul]
  rw [if_neg one_ne_zero]
  congr 1
  ring

theorem cos_example_a1 :
    cosineSimilarity [1, 0] [(0.9 : ℝ), Real.sqrt 0.19] = .ok 0.9 := by
  apply cosineSimilarity_unit2
  rw [Real.mul_self_sqrt (by norm_num : (0 : ℝ) ≤ 0.19)]
  norm_num

theorem cos_example_a2 :
    cosineSimilarity [1, 0] [(0.4 : ℝ), Real.sqrt 0.84] = .ok 0.4 := by
  apply cosineSimilarity_unit2
  rw [Real.mul_self_sqrt (by norm_num : (0 : ℝ) ≤ 0.84)]
  norm_num

theorem cos_example_b1 :
    cosineSimilarity [1, 0] [(0.6 : ℝ), (0.8 : ℝ)] = .ok 0.6 := by
  apply cosineSimilarity_unit2
  norm_num

theorem collect_example :
    collectDocs exampleQuery 0.5 [exampleDocA, exampleDocB] =
      .ok [⟨"a.md", "a1", 0.9⟩, ⟨"b.md", "b1", 0.6⟩] := by
  have hca : collectChunks exampleQuery "a.md" 0.5 exampleDocA.chunks =
      .ok [⟨"a.md", "a1", 0.9⟩] := by
    simp only [exampleDocA, exampleQuery, collectChunks, cos_example_a1, cos_example_a2]
    rw [if_neg (by norm_num : ¬ (0.5 : ℝ) ≤ 0.4), if_pos (by norm_num : (0.5 : ℝ) ≤ 0.9)]
  have hcb : collectChunks exampleQuery "b.md" 0.5 exampleDocB.chunks =
      .ok [⟨"b.md", "b1", 0.6⟩] := by
    simp only [exampleDocB, exampleQuery, collectChunks, cos_example_b1]
    rw [if_pos (by norm_num : (0.5 : ℝ) ≤ 0.6)]
  have hpa : exampleDocA.path = "a.md" := rfl
  have hpb : exampleDocB.path = "b.md" := rfl
  simp only [collectDocs, hpa, hpb, hca, hcb]
  rfl

theorem search_example :
    searchSimilarDocs exampleQuery [exampleDocA, exampleDocB] 5 0.5 =
      .ok [⟨"a.md", "a1", 0.9⟩, ⟨"b.md", "b1", 0.6⟩] := by
  unfold searchSimilarDocs
  rw [collect_example]
  have hsort : List.insertionSort simDesc
      [(⟨"a.md", "a1", 0.9⟩ : SearchResult), ⟨"b.md", "b1", 0.6⟩] =
      [(⟨"a.md", "a1", 0.9⟩ : SearchResult), ⟨"b.md", "b1", 0.6⟩] := by
    simp only [List.insertionSort, List.orderedInsert]
    rw [if_pos (show simDesc ⟨"a.md", "a1", 0.9⟩ ⟨"b.md", "b1", 0.6⟩ by
      simp only [simDesc]
      norm_num)]
  simp only [hsort]
  have hd : dedupe [(⟨"a.md", "a1", 0.9⟩ : SearchResult), ⟨"b.md", "b1", 0.6⟩] [] =
      [(⟨"a.md", "a1", 0.9⟩ : SearchResult), ⟨"b.md", "b1", 0.6⟩] := by
    rw [dedupe, if_neg (List.not_mem_nil _)]
    rw [dedupe, if_neg (by simp)]
    rw [dedupe]
  rw [hd]
  rfl

/-- Claim C2: a successful `searchSimilarDocs` result is sorted by
similarity in descending order, and each returned result's similarity
dominates every above-threshold chunk of the same document; concretely,
with document "a.md" having chunks of similarity 0.9 and 0.4, document
"b.md" one chunk of similarity 0.6, `topN = 5` and `threshold = 0.5`, the
result is "a.md" (0.9) followed by "b.md" (0.6). -/
theorem searchSimilarDocs_ranking :
    (∀ (q : List ℝ) (docs : List EmbeddedDoc) (topN : Nat) (thr : ℝ)
        (out : List SearchResult), searchSimilarDocs q docs topN thr = .ok out →
      List.Sorted simDesc out ∧
      ∀ r ∈ out, ∀ d ∈ docs, d.path = r.path → ∀ c ∈ d.chunks, ∀ s,
        cosineSimilarity q c.embedding = .ok s → thr ≤ s → s ≤ r.similarity) ∧
    searchSimilarDocs exampleQuery [exampleDocA, exampleDocB] 5 0.5 =
      .ok [⟨"a.md", "a1", 0.9⟩, ⟨"b.md", "b1", 0.6⟩] := by
  constructor
  · intro q docs topN thr out h
    obtain ⟨rs, hrs, hout⟩ := searchSimilarDocs_ok q docs topN thr out h
    have hsorted : List.Sorted simDesc (List.insertionSort simDesc rs) :=
      List.sorted_insertionSort simDesc rs
    have hsub : List.Sublist out (dedupe (List.insertionSort simDesc rs) []) := by
      rw [hout]
      exact List.take_sublist _ _
    constructor
    · exact List.Pairwise.sublist (hsub.trans (dedupe_sublist _ _)) hsorted
    · intro r hr d hd hpath c hc s hcos hthr
      have hrd : r ∈ dedupe (List.insertionSort simDesc rs) [] := hsub.subset hr
      obtain ⟨s2, hs2, hmem⟩ := collectDocs_complete q thr docs rs hrs d hd c hc
      rw [hcos] at hs2
      injection hs2 with hs3
      subst hs3
      have hr2 : (⟨d.path, c.content, s⟩ : SearchResult) ∈
          List.insertionSort simDesc rs :=
        (List.perm_insertionSort simDesc rs).mem_iff.mpr (hmem hthr)
      have := dedupe_max (List.insertionSort simDesc rs) [] r hsorted hrd
        ⟨d.path, c.content, s⟩ hr2 hpath
      exact this
  · exact search_example

theorem searchSimilarDocs_ranking_witness :
    List.Sorted simDesc [(⟨"a.md", "a1", 0.9⟩ : SearchResult), ⟨"b.md", "b1", 0.6⟩] :=
  (searchSimilarDocs_ranking.1 exampleQuery [exampleDocA, exampleDocB] 5 0.5
    [⟨"a.md", "a1", 0.9⟩, ⟨"b.md", "b1", 0.6⟩] searchSimilarDocs_ranking.2).1

/-! ### Lemmas about persistence -/

/-- Claim C7: `loadEmbeddings` fails with the index-not-found error exactly
when the index file is missing (the read fails with code "ENOENT"); any
other read error, and any parse error, is propagated to the caller
unchanged. Hypotheses record the JavaScript environment facts: `JSON.parse`
raises `SyntaxError`s, which carry no code and are never the loader's own
error value, and Node.js file-system errors always carry a code. -/
theorem loadEmbeddings_spec (readResult : Except JsError String)
    (parse : String → Except JsError EmbeddingsStore)
    (hparseCode : ∀ s e, parse s = .error e → e.code = none)
    (hparseNe : ∀ s, parse s ≠ .error indexNotFoundError)
    (hread : ∀ e, readResult = .error e → e.code ≠ none) :
    (loadEmbeddings readResult parse = .error indexNotFoundError ↔
      ∃ e, readResult = .error e ∧ e.code = some "ENOENT") ∧
    (∀ e, readResult = .error e → e.code ≠ some "ENOENT" →
      loadEmbeddings readResult parse = .error e) ∧
    (∀ s e, readResult = .ok s → parse s = .error e →
      loadEmbeddings readResult parse = .error e) := by
  refine ⟨⟨?_, ?_⟩, ?_, ?_⟩
  · intro h
    cases hr : readResult with
    | ok s =>
      simp only [loadEmbeddings, hr] at h
      cases hp : parse s with
      | ok store =>
        simp only [hp] at h
        exact absurd h (by simp)
      | error e =>
        have hc : e.code ≠ some "ENOENT" := by
          rw [hparseCode s e hp]
          simp
        simp only [hp, if_neg hc] at h
        injection h with h2
        exact absurd (h2 ▸ hp) (hparseNe s)
    | error e =>
      simp only [loadEmbeddings, hr] at h
      by_cases hc : e.code = some "ENOENT"
      · exact ⟨e, rfl, hc⟩
      · rw [if_neg hc] at h
        injection h with h2
        have hcode : e.code = none := by rw [h2]; rfl
        exact absurd hcode (hread e hr)
  · intro ⟨e, hr, hc⟩
    simp only [loadEmbeddings, hr, if_pos hc]
  · intro e hr hc
    simp only [loadEmbeddings, hr, if_neg hc]
  · intro s e hr hp
    have hc : e.code ≠ some "ENOENT" := by
      rw [hparseCode s e hp]
      simp
    simp only [loadEmbeddings, hr, hp, if_neg hc]

theorem loadEmbeddings_spec_witness :
    loadEmbeddings (.error ⟨some "ENOENT", "ENOENT: no such file or directory"⟩)
      (fun _ => .error ⟨none, "Unexpected end of JSON input"⟩) =
      .error indexNotFoundError :=
  (loadEmbeddings_spec (.error ⟨some "ENOENT", "ENOENT: no such file or directory"⟩)
    (fun _ => .error ⟨none, "Unexpected end of JSON input"⟩)
    (fun _ e h => by injection h with h2; rw [← h2])
    (fun s h => by simp [indexNotFoundError] at h)
    (fun e h => by injection h with h2; rw [← h2]; simp)).1.mpr
    ⟨⟨some "ENOENT", "ENOENT: no such file or directory"⟩, rfl, rfl⟩

theorem decodeList_encode {α : Type _} (dec : Json → Option α) (enc : α → Json)
    (h : ∀ x, dec (enc x) = some x) :
    ∀ l : List α, decodeList dec (l.map enc) = some l := by
  intro l
  induction l with
  | nil => rfl
  | cons x xs ih =>
    simp only [List.map_cons, decodeList, h x, ih]

theorem decodeChunk_encodeChunk (c : DocChunk) :
    decodeChunk (encodeChunk c) = some c := by
  have h1 : decodeList decodeNum (c.embedding.map Json.num) = some c.embedding :=
    decodeList_encode decodeNum Json.num (fun _ => rfl) c.embedding
  have h2 : List.lookup "content"
      [("content", Json.str c.content),
       ("embedding", Json.arr (c.embedding.map Json.num))] =
      some (Json.str c.content) := rfl
  have h3 : List.lookup "embedding"
      [("content", Json.str c.content),
       ("embedding", Json.arr (c.embedding.map Json.num))] =
      some (Json.arr (c.embedding.map Json.num)) := rfl
  simp only [encodeChunk, decodeChunk, h2, h3, h1]

theorem decodeDoc_encodeDoc (d : EmbeddedDoc) :
    decodeDoc (encodeDoc d) = some d := by
  have h1 : decodeList decodeChunk (d.chunks.map encodeChunk) = some d.chunks :=
    decodeList_encode decodeChunk encodeChunk decodeChunk_encodeChunk d.chunks
  have h2 : List.lookup "path"
      [("path", Json.str d.path), ("chunks", Json.arr (d.chunks.map encodeChunk))] =
      some (Json.str d.path) := rfl
  have h3 : List.lookup "chunks"
      [("path", Json.str d.path), ("chunks", Json.arr (d.chunks.map encodeChunk))] =
      some (Json.arr (d.chunks.map encodeChunk)) := rfl
  simp only [encodeDoc, decodeDoc, h2, h3, h1]

/-- Claim C8: persisting any list of embedded documents with
`saveEmbeddings` and reading the file back yields a store whose documents
are exactly the originals: same paths in the same order, same chunk counts,
same chunk contents, and same embedding vectors. -/
theorem saveEmbeddings_roundtrip (docs : List EmbeddedDoc) (now : String) :
    ∃ store, parseStore (saveEmbeddings docs now) = some store ∧
      store.documents = docs ∧
      store.documents.map (fun d => d.path) = docs.map (fun d => d.path) ∧
      store.documents.map (fun d => d.chunks.length) =
        docs.map (fun d => d.chunks.length) ∧
      store.documents.map (fun d => d.chunks.map (fun c => c.content)) =
        docs.map (fun d => d.chunks.map (fun c => c.content)) ∧
      store.documents.map (fun d => d.chunks.map (fun c => c.embedding)) =
        docs.map (fun d => d.chunks.map (fun c => c.embedding)) := by
  refine ⟨⟨EMBEDDING_MODEL, now, docs⟩, ?_, rfl, rfl, rfl, rfl, rfl⟩
  have h1 : decodeList decodeDoc (docs.map encodeDoc) = some docs :=
    decodeList_encode decodeDoc encodeDoc decodeDoc_encodeDoc docs
  have h2 : List.lookup "model"
      [("model", Json.str EMBEDDING_MODEL), ("generatedAt", Json.str now),
       ("documents", Json.arr (docs.map encodeDoc))] =
      some (Json.str EMBEDDING_MODEL) := rfl
  have h3 : List.lookup "generatedAt"
      [("model", Json.str EMBEDDING_MODEL), ("generatedAt", Json.str now),
       ("documents", Json.arr (docs.map encodeDoc))] =
      some (Json.str now) := rfl
  have h4 : List.lookup "documents"
      [("model", Json.str EMBEDDING_MODEL), ("generatedAt", Json.str now),
       ("documents", Json.arr (docs.map encodeDoc))] =
      some (Json.arr (docs.map encodeDoc)) := rfl
  simp only [saveEmbeddings, encodeStore, parseStore, h2, h3, h4, h1]

end Janusdoc
